import Mathlib

/- Verification of the lifeactuary library (mortality tables, commutation
functions, fractional-age commutation tables and the direct-summation
annuity module).

Numeric model: Python floats are modelled by exact rationals; quantities
the code obtains through fractional powers (`np.power` with non-integer
exponent, `np.sqrt`) are modelled in the reals via `Real.rpow`.
`np.nan` is modelled by `none` of an `Option`; a raised exception
(TypeError / ValueError) by the explicit result `PyR.err`. -/

/-- Python list indexing: a negative index wraps around from the end
 (`l[-1]` is the last element). Out-of-range access, which raises in
 Python, yields the junk value 0 here; the guarded code paths proved
 about below never index out of range. -/
def pyGet (l : List ℚ) (i : ℤ) : ℚ :=
  if i < 0 then l.getD (l.length - (-i).toNat) 0 else l.getD i.toNat 0

/-- Python `int()`: truncation toward zero. -/
def pyInt (q : ℚ) : ℤ := if 0 ≤ q then ⌊q⌋ else -⌊-q⌋

/-- Rounding half to even on an integer scale, the tie rule used by
 `np.round`. -/
def roundHalfEven (q : ℚ) : ℤ :=
  if q - ⌊q⌋ < 1/2 then ⌊q⌋
  else if 1/2 < q - ⌊q⌋ then ⌊q⌋ + 1
  else if 2 ∣ ⌊q⌋ then ⌊q⌋ else ⌊q⌋ + 1

/-- `np.round(q, 5)`: round to 5 decimal places, ties to even. -/
def npRound5 (q : ℚ) : ℚ := (roundHalfEven (q * 100000) : ℚ) / 100000

/-- `np.linspace a b n`: n evenly spaced points from a to b inclusive. -/
def linspace (a b : ℚ) (n : ℕ) : List ℚ :=
  if n = 0 then []
  else (List.range n).map (fun (k : ℕ) => a + (k : ℚ) * (b - a) / ((n : ℚ) - 1))

/-- The interpolation methods accepted by the library; `other` stands for
 any string outside `('udd', 'cfm', 'bal')`. -/
inductive Method where
  | udd
  | cfm
  | bal
  | other
deriving DecidableEq

/-- The `data_type` tag of `MortalityTable.__init__` ('l', 'q' or 'p'). -/
inductive DataType where
  | l
  | q
  | p
deriving DecidableEq

/-- The vectors a constructed `MortalityTable` instance carries
 (`ex` is omitted: nothing below depends on it). `w = len(lx) - 2`. -/
structure MortalityTable where
  qx : List ℚ
  px : List ℚ
  lx : List ℚ
  dx : List ℚ
  w : ℕ
deriving DecidableEq, Inhabited

/-- The survivor column built by the forward recursion
 `lx[k+1] = lx[k] * px[k]` from the radix. -/
def lxFrom (r : ℚ) : List ℚ → List ℚ
  | [] => [r]
  | p :: ps => r :: lxFrom (r * p) ps

/-- Raw `qx` derivation from the input sequence (already stripped of the
 leading age), per `data_type`: diffs of survivors for 'l', scaling for
 'q', complement for 'p'. -/
def mkQxRaw : DataType → List ℚ → ℚ → List ℚ
  | .l, t, pperc =>
    let t2 := if 0 < pyGet t (-1) then t ++ [0] else t
    (List.range (t2.length - 1)).map
      (fun (k : ℕ) =>
        (pyGet t2 (k : ℤ) - pyGet t2 ((k : ℤ) + 1)) / pyGet t2 (k : ℤ) * pperc)
  | .q, t, pperc => t.map (fun v => v * pperc)
  | .p, t, pperc => t.map (fun v => (1 - v) * pperc)

/-- The terminal-decrement adjustment of `MortalityTable.__init__`:
 with `last_q = 1`, append a certain-death year unless the last `qx`
 is already within 1e-11 of 1; with `last_q = 0`, append a
 certain-survival year unless it is already within 1e-11 of 0. -/
def applyLastQ (lastq : ℤ) (qx : List ℚ) : List ℚ :=
  let qx1 := if lastq = 1 ∧ pyGet qx (-1) < 1 - 1 / 10 ^ 11 then qx ++ [1] else qx
  if lastq = 0 ∧ 1 / 10 ^ 11 < pyGet qx1 (-1) then qx1 ++ [0] else qx1

/-- `MortalityTable.__init__`: derives qx (scaled by perc/100, terminal
 convention applied, left-padded with x0 zeros), px, the lx recursion from
 radix 100000, dx = lx[:-1]*qx, and w = len(lx)-2. `none` models the
 refused (or crashing) constructions: unrecognized tag is unrepresentable
 here, an input without at least one rate raises in the source. -/
def mkMortalityTable (dataType : DataType) (mt : List ℚ) (perc : ℚ) (lastq : ℤ) :
    Option MortalityTable :=
  if mt.isEmpty then none else
  let x0 : ℕ := (pyInt (pyGet mt 0)).toNat
  let pperc := perc / 100
  let t := mt.drop 1
  let qx1 := mkQxRaw dataType t pperc
  if qx1.isEmpty then none else
  let qx2 := applyLastQ lastq qx1
  let qxF := List.replicate x0 0 ++ qx2
  let pxF := qxF.map (fun q => 1 - q)
  let lxF := lxFrom 100000 pxF
  let dxF := List.zipWith (fun a b => a * b) lxF.dropLast qxF
  some { qx := qxF, px := pxF, lx := lxF, dx := dxF, w := lxF.length - 2 }

/-- Real power of rationals, the model of `np.power` on floats. -/
noncomputable def qpow (b e : ℚ) : ℝ := (b : ℝ) ^ (e : ℝ)

/-- `MortalityTable.lx_udd`: linear interpolation of lx at real age t. -/
noncomputable def lx_udd (T : MortalityTable) (t : ℚ) : Option ℝ :=
  if t > (T.w : ℚ) + 1 then some 0
  else if t < 0 then none
  else
    let it : ℤ := pyInt t
    let ft : ℚ := t - it
    if ft = 0 then some ((pyGet T.lx it : ℚ) : ℝ)
    else some (((pyGet T.lx it * (1 - ft) + pyGet T.lx (it + 1) * ft : ℚ) : ℝ))

/-- `MortalityTable.lx_cfm`: geometric interpolation of lx at real age t. -/
noncomputable def lx_cfm (T : MortalityTable) (t : ℚ) : Option ℝ :=
  if t > (T.w : ℚ) + 1 then some 0
  else if t < 0 then none
  else
    let it : ℤ := pyInt t
    let ft : ℚ := t - it
    if ft = 0 then some ((pyGet T.lx it : ℚ) : ℝ)
    else some ((pyGet T.lx it : ℚ) * qpow (pyGet T.lx (it + 1) / pyGet T.lx it) ft)

/-- `MortalityTable.lx_bal`: harmonic (Balducci) interpolation of lx. -/
noncomputable def lx_bal (T : MortalityTable) (t : ℚ) : Option ℝ :=
  if t > (T.w : ℚ) + 1 then some 0
  else if t < 0 then none
  else
    let it : ℤ := pyInt t
    let ft : ℚ := t - it
    if ft = 0 then some ((pyGet T.lx it : ℚ) : ℝ)
    else
      let inv_lx : ℚ :=
        1 / pyGet T.lx it - ft * (1 / pyGet T.lx it - 1 / pyGet T.lx (it + 1))
      some ((1 / inv_lx : ℚ) : ℝ)

/-- `MortalityTable.get_lx_method`: guards (unknown method, negative age,
 age beyond w+1) then dispatch on the interpolation method. -/
noncomputable def get_lx_method (T : MortalityTable) (x : ℚ) (method : Method) :
    Option ℝ :=
  if method = .other then none
  else if x < 0 then none
  else if x > (T.w : ℚ) + 1 then some 0
  else
    match method with
    | .udd => lx_udd T x
    | .cfm => lx_cfm T x
    | .bal => lx_bal T x
    | .other => none

/-- `MortalityTable.nqx`: n-period death probability. -/
noncomputable def nqx (T : MortalityTable) (x n : ℚ) (method : Method) : Option ℝ :=
  if method = .other then none
  else if x < 0 then none
  else if n ≤ 0 then some 0
  else if x + n > (T.w : ℚ) + 1 then some ((pyGet T.qx (-1) : ℚ) : ℝ)
  else
    match get_lx_method T x method, get_lx_method T (x + n) method with
    | some l_x, some l_x_t => some (1 - l_x_t / l_x)
    | _, _ => none

/-- `MortalityTable.npx`: n-period survival probability. -/
noncomputable def npx (T : MortalityTable) (x n : ℚ) (method : Method) : Option ℝ :=
  if method = .other then none
  else if x < 0 then none
  else if n ≤ 0 then some 1
  else if x + n > (T.w : ℚ) + 1 then some ((pyGet T.px (-1) : ℚ) : ℝ)
  else
    match get_lx_method T x method, get_lx_method T (x + n) method with
    | some l_x, some l_x_t => some (l_x_t / l_x)
    | _, _ => none

/-- A `CommutationFunctions` instance built with an interest rate: the
 mortality table plus the stored scalars `i = i/100`, `g = g/100` and the
 continuous-approximation flag (mirroring `self.__i`, `self.__g`,
 `self.__app_cont`). -/
structure CommFuns where
  tab : MortalityTable
  i : ℚ
  g : ℚ
  app_cont : Bool
deriving DecidableEq

/-- `self.__d = (1 + g) / (1 + i)`, the growth-adjusted discount factor. -/
def dfac (c : CommFuns) : ℚ := (1 + c.g) / (1 + c.i)

/-- `self.__Dx = lx[:-1] * d ** range(len(lx)-1)`. -/
def DxL (c : CommFuns) : List ℚ :=
  (List.range (c.tab.lx.length - 1)).map
    (fun (k : ℕ) => pyGet c.tab.lx (k : ℤ) * dfac c ^ k)

/-- `self.__Nx[x] = sum(Dx[x:])`. -/
def NxL (c : CommFuns) : List ℚ :=
  (List.range (DxL c).length).map (fun k => ((DxL c).drop k).sum)

/-- `self.__Sx[x] = sum(Nx[x:])`. -/
def SxL (c : CommFuns) : List ℚ :=
  (List.range (NxL c).length).map (fun k => ((NxL c).drop k).sum)

/-- `self.__Cx = dx * d ** range(1, len(dx)+1)` before the optional
 continuous-approximation scaling. -/
def CxL (c : CommFuns) : List ℚ :=
  (List.range c.tab.dx.length).map
    (fun (k : ℕ) => pyGet c.tab.dx (k : ℤ) * dfac c ^ (k + 1))

/-- `self.__Mx[x] = sum(Cx[x:])` before the optional scaling. -/
def MxL (c : CommFuns) : List ℚ :=
  (List.range (CxL c).length).map (fun k => ((CxL c).drop k).sum)

/-- `self.__Rx[x] = sum(Mx[x:])` before the optional scaling. -/
def RxL (c : CommFuns) : List ℚ :=
  (List.range (MxL c).length).map (fun k => ((MxL c).drop k).sum)

/-- `self.__cont = np.sqrt(1 + i)`. -/
noncomputable def contR (c : CommFuns) : ℝ := Real.sqrt (1 + (c.i : ℝ))

/-- The `Cx` vector actually stored: scaled by `cont` when `app_cont`. -/
noncomputable def CxR (c : CommFuns) (k : ℕ) : ℝ :=
  (if c.app_cont then contR c else 1) * ((pyGet (CxL c) k : ℚ) : ℝ)

/-- The `Mx` vector actually stored: scaled by `cont` when `app_cont`. -/
noncomputable def MxR (c : CommFuns) (k : ℕ) : ℝ :=
  (if c.app_cont then contR c else 1) * ((pyGet (MxL c) k : ℚ) : ℝ)

/-- The `Rx` vector actually stored: scaled by `cont` when `app_cont`. -/
noncomputable def RxR (c : CommFuns) (k : ℕ) : ℝ :=
  (if c.app_cont then contR c else 1) * ((pyGet (RxL c) k : ℚ) : ℝ)

/-- `CommutationFunctions.__init__` (with an interest rate): builds the
 mortality table with the default terminal convention `last_q = 1` and
 stores `i/100`, `g/100`. `i`, `g` are given in percentage. -/
def mkCommFuns (i g : ℚ) (dataType : DataType) (mt : List ℚ) (perc : ℚ)
    (app_cont : Bool) : Option CommFuns :=
  (mkMortalityTable dataType mt perc 1).map
    (fun T => { tab := T, i := i / 100, g := g / 100, app_cont := app_cont })

/-- `CommutationFunctions.ax`: immediate whole life annuity,
 `Nx[x+1]/Dx[x]/(1+g) + (m-1)/(2m)`, with its guards. -/
def ax (c : CommFuns) (x : ℤ) (m : ℚ) : Option ℚ :=
  if x < 0 then none
  else if m < 0 then none
  else if x ≥ (c.tab.w : ℤ) then some 0
  else some (pyGet (NxL c) (x + 1) / pyGet (DxL c) x / (1 + c.g) + (m - 1) / (m * 2))

/-- `CommutationFunctions.aax`: due whole life annuity,
 `Nx[x]/Dx[x] - (m-1)/(2m)`; only guard is `x > w`. -/
def aax (c : CommFuns) (x : ℤ) (m : ℚ) : Option ℚ :=
  if x > (c.tab.w : ℤ) then some 1
  else some (pyGet (NxL c) x / pyGet (DxL c) x - (m - 1) / (m * 2))

/-- `CommutationFunctions.nEx`: pure endowment
 `Dx[x+n]/Dx[x]/(1+g)^n` with its guards. -/
def nEx (c : CommFuns) (x n : ℤ) : Option ℚ :=
  if x < 0 then none
  else if n ≤ 0 then some 1
  else if x + n > (c.tab.w : ℤ) then some 0
  else some (pyGet (DxL c) (x + n) / pyGet (DxL c) x / (1 + c.g) ^ n)

/-- `CommutationFunctions.naax`: due temporary life annuity; note the
 first guard returns 1 as soon as `x >= w or n == 1`. -/
def naax (c : CommFuns) (x n : ℤ) (m : ℚ) : Option ℚ :=
  if x ≥ (c.tab.w : ℤ) ∨ n = 1 then some 1
  else if x < 0 then none
  else if m < 0 then none
  else if n < 0 then some 0
  else if x + 1 + n ≤ (c.tab.w : ℤ) + 1 then
    (nEx c x n).map
      (fun e =>
        (pyGet (NxL c) x - pyGet (NxL c) (x + n)) / pyGet (DxL c) x -
          (m - 1) / (m * 2) * (1 - e))
  else aax c x m

/-- Outcome of a Python call that can also raise: a produced float value,
 a silent `np.nan`, or a raised exception. -/
inductive PyR where
  | ok (v : ℝ)
  | nan
  | err

/-- NaN-propagating sum of a list of possibly-NaN reals, the model of
 `np.sum` / `sum` over data containing NaN. -/
noncomputable def osumL (l : List (Option ℝ)) : Option ℝ :=
  if l.all Option.isSome then some ((l.map (fun o => o.getD 0)).sum) else none

/-- `annuities.annuity_x`: the direct-summation primitive. Enumerates the
 payment instants with `np.linspace`, weights by interpolated survival and
 the compound discount, and sums. `PyR.err` is the `ValueError` that
 `np.linspace` raises on a negative number of samples. -/
noncomputable def annuity_x (mt : MortalityTable) (x x_first x_last i g m : ℚ)
    (method : Method) : PyR :=
  if x_first < x then .nan
  else if x_last < x_first ∧ x_first = x then .nan
  else if (pyInt m : ℚ) ≠ m then .nan
  else if x = x_first ∧ x_first = x_last then .ok 1
  else
    let i2 := i / 100
    let g2 := g / 100
    let dd := (1 + g2) / (1 + i2)
    let nPay : ℤ := pyInt ((x_last - x_first) * m + 1)
    if nPay < 0 then .err
    else
      let instants := linspace (x_first - x) (x_last - x) nPay.toNat
      let instalments : List (Option ℝ) :=
        instants.map
          (fun t =>
            (npx mt x t method).map
              (fun p => p * qpow dd t / qpow (1 + g2) (x_first - x) / m))
      match osumL instalments with
      | some s => .ok s
      | none => .nan

/-- The value passed for `probs` to `present_value`: Python's `None`,
 a scalar, or a vector of probabilities. -/
inductive PVProbs where
  | nullP
  | scalar (q : ℚ)
  | vec (l : List ℚ)

/-- Cumulative products of the per-period discount factors,
 `np.cumprod(1/(1 + spot_rates/100))`. -/
def cumDiscount (spot : List ℚ) : List ℚ :=
  (List.range spot.length).map
    (fun k => (((spot.take (k + 1)).map (fun r => 1 / (1 + r / 100))).prod))

/-- The final sum of `present_value`:
 `sum(p * capital[k] * discount[k] for k, p in enumerate(probs_))`. -/
noncomputable def pvSum (probs2 : List (Option ℝ)) (spot capital : List ℚ) :
    Option ℝ :=
  osumL
    ((List.range probs2.length).map
      (fun k =>
        (probs2.getD k none).map
          (fun p => p * (pyGet capital k : ℚ) * (pyGet (cumDiscount spot) k : ℚ))))

/-- `CommutationFunctions.present_value`. When `probs` is a list, the
 source never assigns `probs_` (left as `None`) and `enumerate(probs_)`
 raises `TypeError`: that path is `PyR.err`. -/
noncomputable def present_value (c : CommFuns) (probs : PVProbs) (age : Option ℚ)
    (spot capital : List ℚ) : PyR :=
  if spot.length ≠ capital.length then .nan
  else
    match probs with
    | .nullP =>
      match age with
      | none => .nan
      | some a =>
        let probs2 := (List.range capital.length).map
          (fun n => npx c.tab a ((n : ℚ) + 1) .udd)
        match pvSum probs2 spot capital with
        | some s => .ok s
        | none => .nan
    | .scalar q =>
      let probs2 := (List.range capital.length).map (fun _ => some ((q : ℚ) : ℝ))
      match pvSum probs2 spot capital with
      | some s => .ok s
      | none => .nan
    | .vec _ => .err

/-- A `CommutationFunctionsFrac` instance: the underlying commutation
 functions (always built with `app_cont = False`) plus the grid
 subdivision `frac` and the interpolation method. -/
structure CommFrac where
  cf : CommFuns
  frac : ℕ
  method : Method

/-- The finer age grid `np.linspace(0, w+1, (w+1)*frac+1)`. -/
def agesL (s : CommFrac) : List ℚ :=
  linspace 0 ((s.cf.tab.w : ℚ) + 1) ((s.cf.tab.w + 1) * s.frac + 1)

/-- `lx_frac = npx(0, x, method) * 100000` over the grid. -/
noncomputable def lx_fracL (s : CommFrac) : List (Option ℝ) :=
  (agesL s).map (fun a => (npx s.cf.tab 0 a s.method).map (fun p => p * 100000))

/-- `dx_frac = lx_frac[:-1] - lx_frac[1:]` with a trailing 0 appended. -/
noncomputable def dx_fracL (s : CommFrac) : List (Option ℝ) :=
  (List.zipWith
      (fun a b =>
        match a, b with
        | some u, some v => some (u - v)
        | _, _ => none)
      (lx_fracL s) ((lx_fracL s).drop 1)) ++ [some 0]

/-- `Dx_frac = lx_frac * d ** ages`. -/
noncomputable def Dx_fracL (s : CommFrac) : List (Option ℝ) :=
  List.zipWith (fun o a => o.map (fun v => v * qpow (dfac s.cf) a))
    (lx_fracL s) (agesL s)

/-- `Nx_frac[x] = sum(Dx_frac[x:])`. -/
noncomputable def Nx_fracL (s : CommFrac) : List (Option ℝ) :=
  (List.range (agesL s).length).map (fun k => osumL ((Dx_fracL s).drop k))

/-- `Sx_frac[x] = sum(Nx_frac[x:])`. -/
noncomputable def Sx_fracL (s : CommFrac) : List (Option ℝ) :=
  (List.range (agesL s).length).map (fun k => osumL ((Nx_fracL s).drop k))

/-- `Cx_frac = dx_frac * d ** (ages + 1/frac)`. -/
noncomputable def Cx_fracL (s : CommFrac) : List (Option ℝ) :=
  List.zipWith (fun o a => o.map (fun v => v * qpow (dfac s.cf) (a + 1 / (s.frac : ℚ))))
    (dx_fracL s) (agesL s)

/-- `Mx_frac[x] = sum(Cx_frac[x:])`. -/
noncomputable def Mx_fracL (s : CommFrac) : List (Option ℝ) :=
  (List.range (agesL s).length).map (fun k => osumL ((Cx_fracL s).drop k))

/-- `Rx_frac[x] = sum(Mx_frac[x:])`. -/
noncomputable def Rx_fracL (s : CommFrac) : List (Option ℝ) :=
  (List.range (agesL s).length).map (fun k => osumL ((Mx_fracL s).drop k))

/-- `CommutationFunctionsFrac.__init__`: the construction refuses an
 unknown method or a non-positive `frac` (a non-integer `frac` is
 unrepresentable here); `last_q` and `app_cont` are not forwarded, so the
 chain always uses `last_q = 1`, `app_cont = False`. -/
def mkCommFrac (i g : ℚ) (dataType : DataType) (mt : List ℚ) (perc : ℚ)
    (frac : ℕ) (method : Method) : Option CommFrac :=
  (mkCommFuns i g dataType mt perc false).bind
    (fun c =>
      if method = .other then none
      else if frac = 0 then none
      else some { cf := c, frac := frac, method := method })

/-- `CommutationFunctionsFrac.age_to_index`: rounds `age_frac * frac` to
 5 decimals, then accepts the age when that rounding and `age_int` are
 integers, returning `int((age_int + age_frac) * frac)`. -/
def age_to_index (s : CommFrac) (age_int age_frac : ℚ) : Option ℤ :=
  let parts := npRound5 (age_frac * (s.frac : ℚ))
  if (pyInt parts : ℚ) = parts ∧ (pyInt age_int : ℚ) = age_int then
    some (pyInt ((age_int + age_frac) * (s.frac : ℚ)))
  else none

/-- A small concrete table: `MortalityTable('q', [0, 1/2])`, so
 `qx = [1/2, 1]`, `lx = [100000, 50000, 0]`, `w = 1`. -/
def tab0 : MortalityTable :=
  { qx := [1/2, 1], px := [1/2, 0], lx := [100000, 50000, 0],
    dx := [50000, 50000], w := 1 }

/-- Commutation functions over `tab0` at `i = 5`, `g = 0`. -/
def cf0 : CommFuns := { tab := tab0, i := 1/20, g := 0, app_cont := false }

/-- The fractional variant of `cf0` with `frac = 1`. -/
def sf0 : CommFrac := { cf := cf0, frac := 1, method := .udd }

/-- The fractional variant of `cf0` with `frac = 2`. -/
def sf2 : CommFrac := { cf := cf0, frac := 2, method := .udd }

/-- A table whose derived terminal `qx` is `1 - 10^-12`: within the 1e-11
 tolerance of `applyLastQ`, so no certain-death year is appended and
 `lx[w+1] = 1/20000000 > 0`. -/
def tabB : MortalityTable :=
  { qx := [1/2, 999999999999/1000000000000],
    px := [1/2, 1/1000000000000],
    lx := [100000, 50000, 1/20000000],
    dx := [50000, 999999999999/20000000], w := 1 }

/-- Commutation functions over `tabB` at `i = 5`, `g = 0`. -/
def cfB : CommFuns := { tab := tabB, i := 1/20, g := 0, app_cont := false }

/-- The fractional variant of `cfB` with `frac = 1`. -/
def sfB : CommFrac := { cf := cfB, frac := 1, method := .udd }

/-- The relations the `MortalityTable.__init__` pipeline establishes
 between the stored vectors (used to reason about every constructed
 table at once). -/
def wellFormed (T : MortalityTable) : Prop :=
  T.px = T.qx.map (fun q => 1 - q) ∧
  T.lx = lxFrom 100000 T.px ∧
  T.dx = List.zipWith (fun a b => a * b) T.lx.dropLast T.qx ∧
  T.w + 2 = T.lx.length

theorem pyGet_natCast (l : List ℚ) (k : ℕ) : pyGet l (k : ℤ) = l.getD k 0 := by
  simp [pyGet]

theorem pyInt_natCast (k : ℕ) : pyInt (k : ℚ) = k := by
  simp [pyInt]

theorem getD_map_range (f : ℕ → ℚ) (n k : ℕ) (d : ℚ) (h : k < n) :
    ((List.range n).map f).getD k d = f k := by
  rw [List.getD_eq_getElem?_getD]
  simp [List.getElem?_map, List.getElem?_range, h]

theorem sum_drop_map_range (f : ℕ → ℚ) (n k : ℕ) :
    (((List.range n).map f).drop k).sum = ∑ j in Finset.Ico k n, f j := by
  induction n with
  | zero => simp
  | succ n ih =>
    rcases le_or_lt k n with h | h
    · rw [List.range_succ, List.map_append, List.drop_append_of_le_length (by simpa),
        Finset.sum_Ico_succ_top h]
      simp [ih]
    · have h2 : ((List.range (n + 1)).map f).length ≤ k := by simpa
      rw [List.drop_eq_nil_of_le h2, Finset.Ico_eq_empty (by omega)]
      simp

theorem osumL_cons_some (v : ℝ) (t : List (Option ℝ)) :
    osumL (some v :: t) = (osumL t).map (fun s => v + s) := by
  by_cases h : t.all Option.isSome <;> simp [osumL, h]

theorem osumL_eq (L : List (Option ℝ)) (g : ℕ → ℝ)
    (h : ∀ j, j < L.length → L.getD j none = some (g j)) (k : ℕ) :
    osumL (L.drop k) = some (∑ j in Finset.Ico k L.length, g j) := by
  induction L generalizing g k with
  | nil => simp [osumL]
  | cons a t ih =>
    have ha : a = some (g 0) := by simpa using h 0 (by simp)
    have ht : ∀ j, j < t.length → t.getD j none = some (g (j + 1)) := by
      intro j hj
      simpa using h (j + 1) (by simpa)
    cases k with
    | zero =>
      rw [List.drop_zero, ha, osumL_cons_some]
      rw [show osumL t = osumL (t.drop 0) by rw [List.drop_zero]]
      rw [ih (fun j => g (j + 1)) ht 0]
      have h1 : ∑ j in Finset.Ico 0 (t.length + 1), g j =
          g 0 + ∑ j in Finset.Ico 0 t.length, g (j + 1) := by
        rw [show Finset.Ico 0 (t.length + 1) = Finset.range (t.length + 1) by simp,
          show Finset.Ico 0 t.length = Finset.range t.length by simp,
          Finset.sum_range_succ']
        ring
      simp only [Option.map_some, Option.map_some', List.length_cons]
      rw [h1]
    | succ k' =>
      rw [List.drop_succ_cons, ih (fun j => g (j + 1)) ht k']
      congr 1
      rw [Finset.sum_Ico_eq_sum_range, Finset.sum_Ico_eq_sum_range]
      simp only [List.length_cons]
      rw [show t.length + 1 - (k' + 1) = t.length - k' by omega]
      exact Finset.sum_congr rfl (fun i _ => by rw [show k' + 1 + i = k' + i + 1 by omega])

theorem pyInt_intCast (n : ℤ) : pyInt (n : ℚ) = n := by
  unfold pyInt
  rcases le_or_lt 0 n with h | h
  · rw [if_pos (by exact_mod_cast h), Int.floor_intCast]
  · rw [if_neg (by push_neg; exact_mod_cast h),
      show -((n : ℚ)) = ((-n : ℤ) : ℚ) by push_cast; ring, Int.floor_intCast]
    omega

theorem num_cast_of_den_one (q : ℚ) (h : q.den = 1) : (q.num : ℚ) = q := by
  conv_rhs => rw [← Rat.num_div_den q]
  rw [h]
  simp

theorem pyInt_of_den_one (q : ℚ) (h : q.den = 1) : pyInt q = q.num := by
  calc pyInt q = pyInt (q.num : ℚ) := by rw [num_cast_of_den_one q h]
  _ = q.num := pyInt_intCast q.num

/-- C10: for every commutation table, every age x (negative and beyond w
 included) and every frequency m, the due temporary annuity `naax` with
 term n = 1 returns exactly 1: the `n == 1` test is part of the very first
 guard, before any validation of x or m and before the Nx-difference
 formula. -/
theorem naax_one_short_circuit (c : CommFuns) (x : ℤ) (m : ℚ) :
    naax c x 1 m = some 1 := by
  simp [naax]

/-- C6: the code never reads a probability vector passed to
 `present_value`: with `probs` a list (and matching vector lengths, so the
 first guard passes), `probs_` stays `None` and `enumerate(None)` raises
 TypeError instead of returning the weighted sum the docstring promises. -/
theorem present_value_vector_raises (c : CommFuns) (probs : List ℚ)
    (age : Option ℚ) (spot capital : List ℚ)
    (hlen : spot.length = capital.length) :
    present_value c (.vec probs) age spot capital = .err := by
  simp [present_value, hlen]

theorem present_value_vector_raises_witness :
    present_value cf0 (.vec [1, 1]) (some 0) [5, 5] [100, 100] = .err :=
  present_value_vector_raises cf0 [1, 1] (some 0) [5, 5] [100, 100] rfl

/-- C1 counterexample: `nEx` checks `x < 0` before `n <= 0`, so at the
 negative age -1 with n = 0 it returns np.nan, not the claimed 1. -/
theorem nEx_negative_age_cex : nEx cf0 (-1) 0 = none ∧ nEx cf0 (-1) 0 ≠ some 1 := by
  have h : nEx cf0 (-1) 0 = none := by norm_num [nEx]
  exact ⟨h, by rw [h]; simp⟩

/-- C1 (amended): for every nonnegative age x (a negative x returns
 np.nan), `nEx(x, n)` returns 1 when n <= 0, returns 0 when n > 0 and
 x + n exceeds w, and otherwise equals `Dx[x+n]/Dx[x]/(1+g)^n`. -/
theorem nEx_contract (c : CommFuns) (x n : ℤ) (hx : 0 ≤ x) :
    (n ≤ 0 → nEx c x n = some 1) ∧
    (0 < n → (c.tab.w : ℤ) < x + n → nEx c x n = some 0) ∧
    (0 < n → x + n ≤ (c.tab.w : ℤ) →
      nEx c x n = some (pyGet (DxL c) (x + n) / pyGet (DxL c) x / (1 + c.g) ^ n)) := by
  refine ⟨fun h1 => ?_, fun h1 h2 => ?_, fun h1 h2 => ?_⟩
  · simp [nEx, not_lt.mpr hx, h1]
  · simp [nEx, not_lt.mpr hx, not_le.mpr h1, h2]
  · simp [nEx, not_lt.mpr hx, not_le.mpr h1, not_lt.mpr h2]

theorem nEx_contract_witness :
    nEx cf0 0 0 = some 1 ∧ nEx cf0 0 5 = some 0 ∧
      nEx cf0 0 1 =
        some (pyGet (DxL cf0) (0 + 1) / pyGet (DxL cf0) 0 / (1 + cf0.g) ^ (1 : ℤ)) :=
  ⟨(nEx_contract cf0 0 0 (by norm_num)).1 (by norm_num),
   (nEx_contract cf0 0 5 (by norm_num)).2.1 (by norm_num) (by norm_num [cf0, tab0]),
   (nEx_contract cf0 0 1 (by norm_num)).2.2 (by norm_num) (by norm_num [cf0, tab0])⟩

theorem natCast_nonneg_q (k : ℕ) : ¬ ((k : ℚ) < 0) := not_lt.mpr (by positivity)

theorem pyInt_natCastQ (k : ℕ) : pyInt (k : ℚ) = (k : ℤ) := by
  rw [show ((k : ℚ)) = (((k : ℤ) : ℤ) : ℚ) by push_cast; ring, pyInt_intCast]

/-- Integer ages hit the `frac_t == 0` branch of all three interpolation
 rules, so `get_lx_method` returns the table value `lx[k]` exactly,
 independently of the method. -/
theorem getLx_int (T : MortalityTable) (method : Method) (hm : method ≠ .other)
    (k : ℕ) (hk : (k : ℚ) ≤ (T.w : ℚ) + 1) :
    get_lx_method T (k : ℚ) method = some ((T.lx.getD k 0 : ℚ) : ℝ) := by
  have h0 : ¬ ((k : ℚ) < 0) := natCast_nonneg_q k
  have h1 : ¬ ((k : ℚ) > (T.w : ℚ) + 1) := not_lt.mpr hk
  have hpy : pyInt (k : ℚ) = (k : ℤ) := pyInt_natCastQ k
  have hft : (k : ℚ) - ((pyInt (k : ℚ) : ℤ) : ℚ) = 0 := by
    rw [hpy]
    push_cast
    ring
  cases method with
  | other => exact absurd rfl hm
  | udd => simp [get_lx_method, lx_udd, h0, h1, hft, hpy, pyGet_natCast]
  | cfm => simp [get_lx_method, lx_cfm, h0, h1, hft, hpy, pyGet_natCast]
  | bal => simp [get_lx_method, lx_bal, h0, h1, hft, hpy, pyGet_natCast]

/-- C4: for every constructed table and method in (udd, cfm, bal),
 `get_lx_method(x, method)` is np.nan for negative x, 0 beyond w+1, and at
 every integer x in [0, w+1] equals the table value lx[x] exactly,
 independently of the method. -/
theorem get_lx_method_contract (T : MortalityTable) (x : ℚ) (method : Method)
    (hm : method ≠ .other) :
    (x < 0 → get_lx_method T x method = none) ∧
    ((T.w : ℚ) + 1 < x → get_lx_method T x method = some 0) ∧
    (x.den = 1 → 0 ≤ x → x ≤ (T.w : ℚ) + 1 →
      get_lx_method T x method = some ((pyGet T.lx (pyInt x) : ℚ) : ℝ)) := by
  refine ⟨fun h1 => ?_, fun h1 => ?_, fun h1 h2 h3 => ?_⟩
  · cases method <;> simp [get_lx_method, h1]
  · have h0 : ¬ x < 0 := not_lt.mpr (le_trans (by positivity) h1.le)
    cases method with
    | other => exact absurd rfl hm
    | udd => simp [get_lx_method, h0, h1]
    | cfm => simp [get_lx_method, h0, h1]
    | bal => simp [get_lx_method, h0, h1]
  · have hnum : (0 : ℤ) ≤ x.num := Rat.num_nonneg.mpr h2
    have hx : x = (x.num.toNat : ℚ) := by
      have h4 : ((x.num.toNat : ℕ) : ℚ) = ((x.num : ℤ) : ℚ) := by
        exact_mod_cast congrArg (Int.cast : ℤ → ℚ) (Int.toNat_of_nonneg hnum)
      rw [h4, num_cast_of_den_one x h1]
    rw [hx, getLx_int T method hm x.num.toNat (by rw [← hx]; exact h3)]
    rw [show pyInt ((x.num.toNat : ℕ) : ℚ) = ((x.num.toNat : ℕ) : ℤ) from pyInt_natCastQ _,
      pyGet_natCast]

theorem get_lx_method_contract_witness :
    get_lx_method tab0 (-1) .cfm = none ∧
    get_lx_method tab0 5 .bal = some 0 ∧
    get_lx_method tab0 1 .udd = some ((pyGet tab0.lx (pyInt 1) : ℚ) : ℝ) :=
  ⟨(get_lx_method_contract tab0 (-1) .cfm (by simp)).1 (by norm_num),
   (get_lx_method_contract tab0 5 .bal (by simp)).2.1 (by norm_num [tab0]),
   (get_lx_method_contract tab0 1 .udd (by simp)).2.2 (by norm_num) (by norm_num)
     (by norm_num [tab0])⟩

/-- C5: `npx`/`nqx` contract: unknown method or negative x give np.nan;
 with a valid method and x >= 0, n <= 0 gives the identity (1 for
 survival, 0 for death) without touching the table; and x + n beyond
 w + 1 clamps to the terminal px[-1] / qx[-1] (in particular at
 x = w + 2, n = 1). -/
theorem npx_nqx_contract (T : MortalityTable) (x n : ℚ) (method : Method) :
    (method = .other → npx T x n method = none ∧ nqx T x n method = none) ∧
    (x < 0 → npx T x n method = none ∧ nqx T x n method = none) ∧
    (method ≠ .other → 0 ≤ x → n ≤ 0 →
      npx T x n method = some 1 ∧ nqx T x n method = some 0) ∧
    (method ≠ .other → 0 ≤ x → 0 < n → (T.w : ℚ) + 1 < x + n →
      npx T x n method = some ((pyGet T.px (-1) : ℚ) : ℝ) ∧
      nqx T x n method = some ((pyGet T.qx (-1) : ℚ) : ℝ)) := by
  refine ⟨fun h1 => ?_, fun h1 => ?_, fun h1 h2 h3 => ?_, fun h1 h2 h3 h4 => ?_⟩
  · simp [npx, nqx, h1]
  · cases method <;> simp [npx, nqx, h1]
  · constructor <;> simp [npx, nqx, h1, not_lt.mpr h2, h3]
  · constructor <;>
      simp [npx, nqx, h1, not_lt.mpr h2, not_le.mpr h3, h4]

theorem npx_nqx_contract_witness :
    npx tab0 3 1 .udd = some ((pyGet tab0.px (-1) : ℚ) : ℝ) ∧
    npx tab0 0 0 .udd = some 1 ∧ npx tab0 (-2) 1 .udd = none :=
  ⟨((npx_nqx_contract tab0 3 1 .udd).2.2.2 (by simp) (by norm_num) (by norm_num)
      (by norm_num [tab0])).1,
   ((npx_nqx_contract tab0 0 0 .udd).2.2.1 (by simp) (by norm_num) (by norm_num)).1,
   ((npx_nqx_contract tab0 (-2) 1 .udd).2.1 (by norm_num)).1⟩

/-- Lengths of the commutation vectors. -/
theorem DxL_length (c : CommFuns) : (DxL c).length = c.tab.lx.length - 1 := by
  unfold DxL
  simp

theorem NxL_length (c : CommFuns) : (NxL c).length = (DxL c).length := by
  unfold NxL
  simp

theorem DxL_getD (c : CommFuns) (k : ℕ) (h : k < c.tab.lx.length - 1) :
    (DxL c).getD k 0 = pyGet c.tab.lx (k : ℤ) * dfac c ^ k := by
  unfold DxL
  exact getD_map_range _ _ _ _ h

theorem NxL_getD (c : CommFuns) (k : ℕ) (h : k < (DxL c).length) :
    (NxL c).getD k 0 = ((DxL c).drop k).sum := by
  unfold NxL
  exact getD_map_range _ _ _ _ h

theorem DxL_drop_sum (c : CommFuns) (k : ℕ) :
    ((DxL c).drop k).sum =
      ∑ j in Finset.Ico k (c.tab.lx.length - 1), pyGet c.tab.lx (j : ℤ) * dfac c ^ j := by
  unfold DxL
  exact sum_drop_map_range _ _ _

/-- C3 counterexample: on the table `[0, 1/2]` (w = 1, i = 5) the due
 annuity at exactly x = w with frequency m = 2 returns
 `Nx[w]/Dx[w] - 1/4 = 3/4`, not the claimed boundary value 1: only ages
 strictly beyond w short-circuit to 1. -/
theorem aax_at_w_cex : (cf0.tab.w : ℤ) ≤ 1 ∧ aax cf0 1 2 ≠ some 1 := by
  refine ⟨by norm_num [cf0, tab0], ?_⟩
  have h : aax cf0 1 2 = some (3 / 4) := by
    norm_num [aax, NxL, DxL, pyGet_natCast, pyGet, dfac, cf0, tab0, List.range_succ]
  rw [h]
  intro hc
  have h2 := Option.some.inj hc
  norm_num at h2

/-- C3 (amended): for m >= 0 the immediate annuity `ax` returns 0 at
 every age at or beyond w; the due annuity `aax` returns 1 only strictly
 beyond w — at x = w it returns `Nx[w]/Dx[w] - (m-1)/(2m)`, which equals
 1 exactly when m = 1 (for a table with Dx[w] nonzero). -/
theorem ax_aax_boundary (c : CommFuns) (x : ℤ) (m : ℚ) :
    (0 ≤ m → (c.tab.w : ℤ) ≤ x → ax c x m = some 0) ∧
    ((c.tab.w : ℤ) < x → aax c x m = some 1) ∧
    (aax c (c.tab.w : ℤ) m =
      some (pyGet (NxL c) (c.tab.w : ℤ) / pyGet (DxL c) (c.tab.w : ℤ) -
        (m - 1) / (m * 2))) ∧
    (c.tab.lx.length = c.tab.w + 2 → pyGet (DxL c) (c.tab.w : ℤ) ≠ 0 →
      aax c (c.tab.w : ℤ) 1 = some 1) := by
  refine ⟨fun hm hwx => ?_, fun h => ?_, ?_, fun hlen hD => ?_⟩
  · have hx0 : ¬ (x < 0) := not_lt.mpr (le_trans (Int.natCast_nonneg _) hwx)
    simp [ax, hx0, not_lt.mpr hm, hwx]
  · simp [aax, h]
  · simp [aax]
  · have hNw : pyGet (NxL c) ((c.tab.w : ℕ) : ℤ) = pyGet (DxL c) ((c.tab.w : ℕ) : ℤ) := by
      rw [pyGet_natCast, pyGet_natCast]
      rw [NxL_getD c c.tab.w (by rw [DxL_length]; omega), DxL_drop_sum,
        DxL_getD c c.tab.w (by omega)]
      rw [show c.tab.lx.length - 1 = c.tab.w + 1 by omega]
      rw [Finset.sum_Ico_succ_top (le_refl _), Finset.Ico_self, Finset.sum_empty,
        zero_add]
    simp only [aax, lt_irrefl, if_false]
    rw [hNw, div_self hD]
    norm_num

theorem ax_aax_boundary_witness :
    ax cf0 2 1 = some 0 ∧ aax cf0 2 1 = some 1 ∧ aax cf0 (cf0.tab.w : ℤ) 1 = some 1 :=
  ⟨(ax_aax_boundary cf0 2 1).1 (by norm_num) (by norm_num [cf0, tab0]),
   (ax_aax_boundary cf0 2 1).2.1 (by norm_num [cf0, tab0]),
   (ax_aax_boundary cf0 0 1).2.2.2 (by norm_num [cf0, tab0])
     (by norm_num [DxL, pyGet_natCast, pyGet, dfac, cf0, tab0, List.range_succ])⟩

/-- C7 counterexample: with `x_last` before `x_first` but `x_first != x`
 the rejection guard `x_last < x_first == x` does not fire: on the table
 `[0, 1/2]`, `annuity_x(x=0, x_first=1, x_last=1/2, m=1)` enumerates an
 empty instant list and returns 0.0, not the claimed np.nan. -/
theorem annuity_x_term_cex :
    ((1 : ℚ) / 2 < 1) ∧ annuity_x tab0 0 1 (1/2) 5 0 1 .udd ≠ .nan := by
  refine ⟨by norm_num, ?_⟩
  have h : annuity_x tab0 0 1 (1/2) 5 0 1 .udd = .ok 0 := by
    norm_num [annuity_x, pyInt, linspace, osumL]
  rw [h]
  intro hc
  exact PyR.noConfusion hc

/-- C7 (amended): `annuity_x` returns np.nan when `x_first < x`, np.nan
 when m is not an integer, and np.nan for a nonsensical term
 (`x_last < x_first`) only in the case `x_first == x` that the chained
 guard actually tests; it returns exactly 1 when x, x_first, x_last all
 coincide (with integral m). -/
theorem annuity_x_contract :
    (∀ (mt : MortalityTable) (x xf xl i g m : ℚ) (method : Method),
      xf < x → annuity_x mt x xf xl i g m method = .nan) ∧
    (∀ (mt : MortalityTable) (x xf xl i g m : ℚ) (method : Method),
      (pyInt m : ℚ) ≠ m → annuity_x mt x xf xl i g m method = .nan) ∧
    (∀ (mt : MortalityTable) (x xl i g m : ℚ) (method : Method),
      xl < x → annuity_x mt x x xl i g m method = .nan) ∧
    (∀ (mt : MortalityTable) (x i g m : ℚ) (method : Method),
      (pyInt m : ℚ) = m → annuity_x mt x x x i g m method = .ok 1) := by
  refine ⟨fun mt x xf xl i g m method h => ?_,
    fun mt x xf xl i g m method h => ?_,
    fun mt x xl i g m method h => ?_,
    fun mt x i g m method h => ?_⟩
  · simp [annuity_x, h]
  · by_cases h1 : xf < x
    · simp [annuity_x, h1]
    · by_cases h2 : xl < xf ∧ xf = x
      · obtain ⟨h21, h22⟩ := h2
        subst h22
        simp [annuity_x, h1, h21]
      · simp [annuity_x, h1, h2, h]
  · simp [annuity_x, lt_irrefl, h]
  · simp [annuity_x, lt_irrefl, h]

theorem annuity_x_contract_witness :
    annuity_x tab0 5 4 6 7 0 1 .udd = .nan ∧
    annuity_x tab0 5 6 7 7 0 (1/2) .udd = .nan ∧
    annuity_x tab0 5 5 4 7 0 1 .udd = .nan ∧
    annuity_x tab0 5 5 5 7 0 1 .udd = .ok 1 :=
  ⟨annuity_x_contract.1 tab0 5 4 6 7 0 1 .udd (by norm_num),
   annuity_x_contract.2.1 tab0 5 6 7 7 0 (1/2) .udd (by norm_num [pyInt]),
   annuity_x_contract.2.2.1 tab0 5 4 7 0 1 .udd (by norm_num),
   annuity_x_contract.2.2.2 tab0 5 7 0 1 .udd (by norm_num [pyInt])⟩

theorem lxFrom_length (r : ℚ) (px : List ℚ) : (lxFrom r px).length = px.length + 1 := by
  induction px generalizing r with
  | nil => simp [lxFrom]
  | cons p ps ih => simp [lxFrom, ih]

theorem lxFrom_ne_nil (r : ℚ) (px : List ℚ) : lxFrom r px ≠ [] := by
  cases px <;> simp [lxFrom]

theorem lxFrom_getD_zero (r : ℚ) (px : List ℚ) : (lxFrom r px).getD 0 0 = r := by
  cases px <;> simp [lxFrom]

theorem lxFrom_getD_succ (r : ℚ) (px : List ℚ) (k : ℕ) (h : k < px.length) :
    (lxFrom r px).getD (k + 1) 0 = (lxFrom r px).getD k 0 * px.getD k 0 := by
  induction px generalizing r k with
  | nil => simp at h
  | cons p ps ih =>
    cases k with
    | zero =>
      show (r :: lxFrom (r * p) ps).getD 1 0 =
        (r :: lxFrom (r * p) ps).getD 0 0 * (p :: ps).getD 0 0
      simp only [List.getD_cons_succ, List.getD_cons_zero]
      rw [lxFrom_getD_zero]
    | succ k' =>
      show (r :: lxFrom (r * p) ps).getD (k' + 1 + 1) 0 =
        (r :: lxFrom (r * p) ps).getD (k' + 1) 0 * ((p :: ps)).getD (k' + 1) 0
      simp only [List.getD_cons_succ]
      exact ih (r * p) k' (by simpa using h)

theorem lxFrom_nonneg (r : ℚ) (px : List ℚ) (hr : 0 ≤ r)
    (hpx : ∀ p ∈ px, 0 ≤ p) (k : ℕ) : 0 ≤ (lxFrom r px).getD k 0 := by
  induction px generalizing r k with
  | nil =>
    cases k with
    | zero => simpa [lxFrom]
    | succ k' => simp [lxFrom]
  | cons p ps ih =>
    cases k with
    | zero => simpa [lxFrom]
    | succ k' =>
      simp only [lxFrom, List.getD_cons_succ]
      exact ih (r * p) (mul_nonneg hr (hpx p (List.mem_cons_self p ps)))
        (fun q hq => hpx q (List.mem_cons_of_mem p hq)) k'

/-- Telescoping of the death counts: summing `lx[:-1] * qx` over the
 whole table leaves `lx[0] - lx[-1]`. -/
theorem lxFrom_telescope (r : ℚ) (qx : List ℚ) :
    (List.zipWith (fun a b => a * b)
        (lxFrom r (qx.map (fun q => 1 - q))).dropLast qx).sum =
      r - (lxFrom r (qx.map (fun q => 1 - q))).getD
        ((lxFrom r (qx.map (fun q => 1 - q))).length - 1) 0 := by
  induction qx generalizing r with
  | nil => simp [lxFrom]
  | cons q qs ih =>
    show (List.zipWith (fun a b => a * b)
      (r :: lxFrom (r * (1 - q)) (qs.map (fun q => 1 - q))).dropLast (q :: qs)).sum = _
    rw [List.dropLast_cons_of_ne_nil (lxFrom_ne_nil _ _)]
    rw [List.zipWith_cons_cons, List.sum_cons, ih (r * (1 - q))]
    show _ = r - (r :: lxFrom (r * (1 - q)) (qs.map (fun q => 1 - q))).getD
      ((r :: lxFrom (r * (1 - q)) (qs.map (fun q => 1 - q))).length - 1) 0
    rw [List.length_cons, Nat.add_sub_cancel]
    rw [show ((r :: lxFrom (r * (1 - q)) (qs.map (fun q => 1 - q))).getD
        ((lxFrom (r * (1 - q)) (qs.map (fun q => 1 - q))).length) 0) =
      ((lxFrom (r * (1 - q)) (qs.map (fun q => 1 - q))).getD
        ((lxFrom (r * (1 - q)) (qs.map (fun q => 1 - q))).length - 1) 0) from ?_]
    · ring
    · rw [lxFrom_length, Nat.add_sub_cancel]
      exact List.getD_cons_succ

theorem pyGet_zero (l : List ℚ) : pyGet l 0 = l.getD 0 0 := by
  simp [pyGet]

theorem pyGet_neg_one (l : List ℚ) : pyGet l (-1) = l.getD (l.length - 1) 0 := by
  simp [pyGet]

theorem getD_map_one_sub (qx : List ℚ) (k : ℕ) (h : k < qx.length) :
    (qx.map (fun q => 1 - q)).getD k 0 = 1 - qx.getD k 0 := by
  rw [List.getD_eq_getElem?_getD, List.getElem?_map, List.getElem?_eq_getElem h]
  simp [List.getD_eq_getElem?_getD, List.getElem?_eq_getElem h]

theorem getD_mem_q (l : List ℚ) (k : ℕ) (h : k < l.length) : l.getD k 0 ∈ l := by
  rw [List.getD_eq_getElem?_getD, List.getElem?_eq_getElem h]
  exact List.getElem_mem h

/-- C8: a successfully constructed table whose derived qx all lie in
 [0, 1] has a non-increasing lx, lx[0] equal to the radix 100000 and
 sum(dx) = lx[0] - lx[-1], exactly. -/
theorem mortality_table_invariants (dt : DataType) (mtIn : List ℚ) (perc : ℚ)
    (lastq : ℤ) (T : MortalityTable)
    (hT : mkMortalityTable dt mtIn perc lastq = some T)
    (hq : ∀ q ∈ T.qx, 0 ≤ q ∧ q ≤ 1) :
    pyGet T.lx 0 = 100000 ∧
    (∀ k : ℕ, k + 1 < T.lx.length → pyGet T.lx ((k : ℤ) + 1) ≤ pyGet T.lx (k : ℤ)) ∧
    T.dx.sum = pyGet T.lx 0 - pyGet T.lx (-1) := by
  unfold mkMortalityTable at hT
  split at hT
  · exact Option.noConfusion hT
  · dsimp only at hT
    split at hT
    · exact Option.noConfusion hT
    · have hT2 := Option.some.inj hT
      subst hT2
      dsimp only at hq ⊢
      set qxF := List.replicate (pyInt (pyGet mtIn 0)).toNat 0 ++
        applyLastQ lastq (mkQxRaw dt (mtIn.drop 1) (perc / 100)) with hqxF
      have hpx : ∀ p ∈ qxF.map (fun q => 1 - q), 0 ≤ p := by
        intro p hp
        obtain ⟨q, hqmem, rfl⟩ := List.mem_map.mp hp
        have := (hq q hqmem).2
        linarith
      refine ⟨?_, ?_, ?_⟩
      · rw [pyGet_zero, lxFrom_getD_zero]
      · intro k hk
        have hklt : k < (qxF.map (fun q => 1 - q)).length := by
          rw [lxFrom_length] at hk
          omega
        rw [show ((k : ℤ) + 1) = (((k + 1 : ℕ)) : ℤ) by push_cast; ring,
          pyGet_natCast, pyGet_natCast]
        rw [lxFrom_getD_succ _ _ k hklt]
        have hnn : 0 ≤ (lxFrom 100000 (qxF.map (fun q => 1 - q))).getD k 0 :=
          lxFrom_nonneg _ _ (by norm_num) hpx k
        have hle1 : (qxF.map (fun q => 1 - q)).getD k 0 ≤ 1 := by
          rw [getD_map_one_sub _ _ (by simpa using hklt)]
          have := (hq _ (getD_mem_q qxF k (by simpa using hklt))).1
          linarith
        exact mul_le_of_le_one_right hnn hle1
      · rw [lxFrom_telescope, pyGet_zero, lxFrom_getD_zero, pyGet_neg_one]

theorem mortality_table_invariants_witness :
    pyGet tab0.lx 0 = 100000 ∧ tab0.dx.sum = pyGet tab0.lx 0 - pyGet tab0.lx (-1) := by
  have hmk : mkMortalityTable .q [0, 1/2] 100 1 = some tab0 := by
    norm_num [mkMortalityTable, mkQxRaw, applyLastQ, pyGet, pyInt, lxFrom, tab0]
  have hq : ∀ q ∈ tab0.qx, 0 ≤ q ∧ q ≤ 1 := by
    intro q hmem
    simp [tab0] at hmem
    rcases hmem with rfl | rfl <;> norm_num
  have h := mortality_table_invariants .q [0, 1/2] 100 1 tab0 hmk hq
  exact ⟨h.1, h.2.2⟩

/-- C9 counterexample: `age_to_index` rounds `age_frac * frac` to 5
 decimals before the alignment test, so the misaligned age 3.500002 on a
 half-year grid (frac = 2, `age_frac * frac = 1.000004`, not an integer)
 is accepted and mapped to index 7 instead of returning np.nan. -/
theorem age_to_index_rounding_cex :
    ((250001 : ℚ) / 500000 * (sf2.frac : ℚ)).den ≠ 1 ∧
    age_to_index sf2 3 (250001 / 500000) = some 7 := by
  constructor
  · norm_num [sf2]
  · norm_num [age_to_index, npRound5, roundHalfEven, pyInt, sf2]

/-- C9 (amended): `age_to_index` accepts exactly the ages where `age_int`
 is an integer and `np.round(age_frac * frac, 5)` is an integer — a
 5-decimal tolerance, not exact grid alignment — returning
 `int((age_int + age_frac) * frac)`; in particular every exactly aligned
 age maps to its grid index `(age_int + age_frac) * frac`, and every age
 failing the rounded test returns np.nan. -/
theorem age_to_index_contract (s : CommFrac) (ai af : ℚ) :
    (ai.den = 1 → (af * (s.frac : ℚ)).den = 1 →
      age_to_index s ai af = some (((ai + af) * (s.frac : ℚ)).num)) ∧
    (¬ ((pyInt (npRound5 (af * (s.frac : ℚ))) : ℚ) = npRound5 (af * (s.frac : ℚ)) ∧
        (pyInt ai : ℚ) = ai) →
      age_to_index s ai af = none) := by
  constructor
  · intro h1 h2
    have hr : npRound5 (af * (s.frac : ℚ)) = af * (s.frac : ℚ) := by
      unfold npRound5 roundHalfEven
      rw [← num_cast_of_den_one _ h2]
      rw [show ((af * (s.frac : ℚ)).num : ℚ) * 100000 =
        (((af * (s.frac : ℚ)).num * 100000 : ℤ) : ℚ) by push_cast; ring]
      rw [Int.floor_intCast]
      rw [if_pos (by push_cast; norm_num)]
      push_cast
      ring
    have hden : ((ai + af) * (s.frac : ℚ)).den = 1 := by
      have : (ai + af) * (s.frac : ℚ) = ai * (s.frac : ℚ) + af * (s.frac : ℚ) := by ring
      rw [this, ← num_cast_of_den_one _ h1, ← num_cast_of_den_one _ h2]
      rw [show (ai.num : ℚ) * (s.frac : ℚ) + ((af * (s.frac : ℚ)).num : ℚ) =
        ((ai.num * s.frac + (af * (s.frac : ℚ)).num : ℤ) : ℚ) by push_cast; ring]
      exact Rat.den_intCast _
    unfold age_to_index
    rw [hr]
    rw [if_pos ⟨by rw [pyInt_of_den_one _ h2, num_cast_of_den_one _ h2],
      by rw [pyInt_of_den_one _ h1, num_cast_of_den_one _ h1]⟩]
    rw [pyInt_of_den_one _ hden]
  · intro h
    unfold age_to_index
    rw [if_neg h]

theorem age_to_index_contract_witness :
    age_to_index sf2 3 (1/2) = some 7 ∧ age_to_index sf2 3 (1/3) = none :=
  ⟨by
    have h := (age_to_index_contract sf2 3 (1/2)).1 (by norm_num) (by norm_num [sf2])
    rw [h]
    norm_num [sf2],
   (age_to_index_contract sf2 3 (1/3)).2 (by
    norm_num [npRound5, roundHalfEven, pyInt, sf2])⟩

theorem getD_of_lt {α : Type} (l : List α) (k : ℕ) (d : α) (h : k < l.length) :
    l.getD k d = l[k] := by
  rw [List.getD_eq_getElem?_getD, List.getElem?_eq_getElem h]
  rfl

theorem zipWith_getD {α β γ : Type} (f : α → β → γ) (l1 : List α) (l2 : List β)
    (k : ℕ) (d1 : α) (d2 : β) (d3 : γ) (h1 : k < l1.length) (h2 : k < l2.length) :
    (List.zipWith f l1 l2).getD k d3 = f (l1.getD k d1) (l2.getD k d2) := by
  have hz : k < (List.zipWith f l1 l2).length := by
    rw [List.length_zipWith]
    omega
  rw [getD_of_lt _ _ _ hz, getD_of_lt _ _ _ h1, getD_of_lt _ _ _ h2,
    List.getElem_zipWith]

theorem drop_one_getD {α : Type} (l : List α) (k : ℕ) (d : α) (h : k + 1 < l.length) :
    (l.drop 1).getD k d = l.getD (k + 1) d := by
  have h2 : k < (l.drop 1).length := by
    rw [List.length_drop]
    omega
  rw [getD_of_lt _ _ _ h2, getD_of_lt _ _ _ h, List.getElem_drop]
  congr 1
  omega

theorem getD_map_range_g {α : Type} (f : ℕ → α) (n k : ℕ) (d : α) (h : k < n) :
    ((List.range n).map f).getD k d = f k := by
  have h2 : k < ((List.range n).map f).length := by simpa
  rw [getD_of_lt _ _ _ h2, List.getElem_map, List.getElem_range]

theorem getD_map_none {α β : Type} (f : α → Option β) (l : List α) (k : ℕ) (d0 : α)
    (h : k < l.length) : (l.map f).getD k none = f (l.getD k d0) := by
  have h2 : k < (l.map f).length := by simpa
  rw [getD_of_lt _ _ _ h2, List.getElem_map, getD_of_lt _ _ _ h]

theorem pyGet_oob (l : List ℚ) (k : ℕ) (h : l.length ≤ k) : pyGet l (k : ℤ) = 0 := by
  rw [pyGet_natCast]
  exact List.getD_eq_default _ _ h

theorem getD_append_left_o {α : Type} (l1 l2 : List α) (k : ℕ) (d : α)
    (h : k < l1.length) : (l1 ++ l2).getD k d = l1.getD k d := by
  have h2 : k < (l1 ++ l2).length := by
    rw [List.length_append]
    omega
  rw [getD_of_lt _ _ _ h2, getD_of_lt _ _ _ h, List.getElem_append_left h]

theorem getD_append_at_length {α : Type} (l1 : List α) (a d : α) :
    (l1 ++ [a]).getD l1.length d = a := by
  have h2 : l1.length < (l1 ++ [a]).length := by
    simp [List.length_append]
  rw [getD_of_lt _ _ _ h2]
  rw [List.getElem_append_right (le_refl _)]
  simp

theorem applyLastQ_ne_nil (lastq : ℤ) (l : List ℚ) (h : l ≠ []) :
    applyLastQ lastq l ≠ [] := by
  unfold applyLastQ
  dsimp only
  split_ifs <;> simp [h]

theorem mk_wellFormed (dt : DataType) (mtIn : List ℚ) (perc : ℚ) (lastq : ℤ)
    (T : MortalityTable) (hT : mkMortalityTable dt mtIn perc lastq = some T) :
    wellFormed T := by
  unfold mkMortalityTable at hT
  split at hT
  · exact Option.noConfusion hT
  · dsimp only at hT
    split at hT
    · exact Option.noConfusion hT
    · next h2 =>
      have hT2 := Option.some.inj hT
      subst hT2
      refine ⟨rfl, rfl, rfl, ?_⟩
      dsimp only
      rw [lxFrom_length, List.length_map, List.length_append]
      have h3 : applyLastQ lastq (mkQxRaw dt (mtIn.drop 1) (perc / 100)) ≠ [] :=
        applyLastQ_ne_nil _ _ (by simpa using h2)
      have h4 : 0 < (applyLastQ lastq (mkQxRaw dt (mtIn.drop 1) (perc / 100))).length :=
        List.length_pos.mpr h3
      omega

theorem qpow_natCast (b : ℚ) (k : ℕ) : qpow b (k : ℚ) = ((b ^ k : ℚ) : ℝ) := by
  unfold qpow
  rw [show (((k : ℕ) : ℚ) : ℝ) = ((k : ℕ) : ℝ) by push_cast; ring]
  rw [Real.rpow_natCast]
  push_cast
  ring

theorem CxL_length (c : CommFuns) : (CxL c).length = c.tab.dx.length := by
  unfold CxL
  simp

theorem CxL_getD (c : CommFuns) (k : ℕ) (h : k < c.tab.dx.length) :
    (CxL c).getD k 0 = pyGet c.tab.dx (k : ℤ) * dfac c ^ (k + 1) := by
  unfold CxL
  exact getD_map_range _ _ _ _ h

theorem MxL_length (c : CommFuns) : (MxL c).length = (CxL c).length := by
  unfold MxL
  simp

theorem MxL_getD (c : CommFuns) (k : ℕ) (h : k < (CxL c).length) :
    (MxL c).getD k 0 = ((CxL c).drop k).sum := by
  unfold MxL
  exact getD_map_range _ _ _ _ h

theorem CxL_drop_sum (c : CommFuns) (k : ℕ) :
    ((CxL c).drop k).sum =
      ∑ j in Finset.Ico k c.tab.dx.length, pyGet c.tab.dx (j : ℤ) * dfac c ^ (j + 1) := by
  unfold CxL
  exact sum_drop_map_range _ _ _

theorem NxL_drop_sum (c : CommFuns) (k : ℕ) :
    ((NxL c).drop k).sum =
      ∑ j in Finset.Ico k (DxL c).length, ((DxL c).drop j).sum := by
  unfold NxL
  exact sum_drop_map_range _ _ _

theorem MxL_drop_sum (c : CommFuns) (k : ℕ) :
    ((MxL c).drop k).sum =
      ∑ j in Finset.Ico k (CxL c).length, ((CxL c).drop j).sum := by
  unfold MxL
  exact sum_drop_map_range _ _ _

theorem SxL_getD (c : CommFuns) (k : ℕ) (h : k < (NxL c).length) :
    (SxL c).getD k 0 = ((NxL c).drop k).sum := by
  unfold SxL
  exact getD_map_range _ _ _ _ h

theorem RxL_getD (c : CommFuns) (k : ℕ) (h : k < (MxL c).length) :
    (RxL c).getD k 0 = ((MxL c).drop k).sum := by
  unfold RxL
  exact getD_map_range _ _ _ _ h

theorem wf_lx_length (T : MortalityTable) (hw : wellFormed T) :
    T.lx.length = T.qx.length + 1 := by
  rw [hw.2.1, lxFrom_length, hw.1, List.length_map]

theorem wf_qx_length (T : MortalityTable) (hw : wellFormed T) :
    T.qx.length = T.w + 1 := by
  have h1 := wf_lx_length T hw
  have h2 := hw.2.2.2
  omega

theorem wf_lx0 (T : MortalityTable) (hw : wellFormed T) : T.lx.getD 0 0 = 100000 := by
  rw [hw.2.1, lxFrom_getD_zero]

theorem wf_lx_succ (T : MortalityTable) (hw : wellFormed T) (k : ℕ)
    (h : k < T.qx.length) :
    T.lx.getD (k + 1) 0 = T.lx.getD k 0 * (1 - T.qx.getD k 0) := by
  have hpxlen : T.px.length = T.qx.length := by
    rw [hw.1, List.length_map]
  conv_lhs => rw [hw.2.1]
  conv_rhs => rw [hw.2.1]
  rw [lxFrom_getD_succ _ _ k (by omega)]
  congr 1
  rw [hw.1, getD_map_one_sub _ _ h]

theorem dropLast_getD {α : Type} (l : List α) (k : ℕ) (d : α) (h : k < l.length - 1) :
    l.dropLast.getD k d = l.getD k d := by
  have h1 : k < l.dropLast.length := by
    rw [List.length_dropLast]
    omega
  rw [getD_of_lt _ _ _ h1, getD_of_lt _ _ _ (by omega), List.getElem_dropLast]

theorem wf_dx_length (T : MortalityTable) (hw : wellFormed T) :
    T.dx.length = T.qx.length := by
  rw [hw.2.2.1, List.length_zipWith, List.length_dropLast, wf_lx_length T hw]
  omega

theorem wf_dx_getD (T : MortalityTable) (hw : wellFormed T) (k : ℕ)
    (h : k < T.qx.length) :
    T.dx.getD k 0 = T.lx.getD k 0 - T.lx.getD (k + 1) 0 := by
  have hlen := wf_lx_length T hw
  conv_lhs => rw [hw.2.2.1]
  rw [zipWith_getD _ _ _ k 0 0 0 (by rw [List.length_dropLast]; omega) h]
  rw [dropLast_getD _ _ _ (by omega)]
  rw [wf_lx_succ T hw k h]
  ring

theorem agesL_one_length (c : CommFuns) (method : Method) :
    (agesL ⟨c, 1, method⟩).length = c.tab.w + 2 := by
  unfold agesL linspace
  rw [if_neg (by omega)]
  simp

theorem agesL_one_getD (c : CommFuns) (method : Method) (k : ℕ)
    (h : k < c.tab.w + 2) :
    (agesL ⟨c, 1, method⟩).getD k 0 = (k : ℚ) := by
  unfold agesL linspace
  dsimp only
  rw [if_neg (by omega)]
  rw [getD_map_range _ _ _ _ (by omega)]
  push_cast
  have hw1 : ((c.tab.w : ℚ) + 1) ≠ 0 := by positivity
  field_simp

theorem lx_frac_one_length (c : CommFuns) (method : Method) :
    (lx_fracL ⟨c, 1, method⟩).length = c.tab.w + 2 := by
  unfold lx_fracL
  rw [List.length_map, agesL_one_length]

theorem lx_frac_one_getD (c : CommFuns) (method : Method) (hm : method ≠ .other)
    (hw : wellFormed c.tab) (k : ℕ) (h : k < c.tab.w + 2) :
    (lx_fracL ⟨c, 1, method⟩).getD k none = some ((c.tab.lx.getD k 0 : ℚ) : ℝ) := by
  unfold lx_fracL
  rw [getD_map_none _ _ k 0 (by rw [agesL_one_length]; omega)]
  rw [agesL_one_getD c method k h]
  dsimp only
  cases k with
  | zero =>
    have h1 : npx c.tab 0 ((0 : ℕ) : ℚ) method = some 1 := by
      simp [npx, hm]
    rw [h1]
    rw [show ((0 : ℕ) : ℚ) = 0 from rfl] at h1
    dsimp only [Option.map_some']
    rw [wf_lx0 c.tab hw]
    norm_num
  | succ j =>
    have hle : ((j + 1 : ℕ) : ℚ) ≤ (c.tab.w : ℚ) + 1 := by
      have h2 : (j + 1 : ℕ) ≤ c.tab.w + 1 := by omega
      exact_mod_cast h2
    have h1 : npx c.tab 0 ((j + 1 : ℕ) : ℚ) method =
        some (((c.tab.lx.getD (j + 1) 0 : ℚ) : ℝ) / ((c.tab.lx.getD 0 0 : ℚ) : ℝ)) := by
      unfold npx
      rw [if_neg (by simp [hm]), if_neg (by norm_num),
        if_neg (not_le.mpr (by positivity)),
        if_neg (not_lt.mpr (by rw [zero_add]; exact hle))]
      rw [show (0 : ℚ) + ((j + 1 : ℕ) : ℚ) = ((j + 1 : ℕ) : ℚ) by ring]
      have hg0 := getLx_int c.tab method hm 0 (by positivity)
      rw [show ((0 : ℕ) : ℚ) = (0 : ℚ) by norm_num] at hg0
      rw [hg0, getLx_int c.tab method hm (j + 1) hle]
    rw [h1]
    dsimp only [Option.map_some']
    rw [wf_lx0 c.tab hw]
    congr 1
    push_cast
    rw [div_mul_cancel₀]
    norm_num

theorem Dx_frac_one_length (c : CommFuns) (method : Method) :
    (Dx_fracL ⟨c, 1, method⟩).length = c.tab.w + 2 := by
  unfold Dx_fracL
  rw [List.length_zipWith, lx_frac_one_length, agesL_one_length]
  omega

theorem Dx_frac_one_getD (c : CommFuns) (method : Method) (hm : method ≠ .other)
    (hw : wellFormed c.tab) (k : ℕ) (h : k < c.tab.w + 2) :
    (Dx_fracL ⟨c, 1, method⟩).getD k none =
      some ((c.tab.lx.getD k 0 * dfac c ^ k : ℚ) : ℝ) := by
  unfold Dx_fracL
  rw [zipWith_getD _ _ _ k none 0 none (by rw [lx_frac_one_length]; omega)
    (by rw [agesL_one_length]; omega)]
  rw [lx_frac_one_getD c method hm hw k h, agesL_one_getD c method k h]
  dsimp only [Option.map_some']
  rw [show dfac (⟨c, 1, method⟩ : CommFrac).cf = dfac c from rfl]
  rw [qpow_natCast]
  push_cast
  ring_nf

theorem dx_frac_one_getD (c : CommFuns) (method : Method) (hm : method ≠ .other)
    (hw : wellFormed c.tab) (k : ℕ) (h : k < c.tab.w + 1) :
    (dx_fracL ⟨c, 1, method⟩).getD k none =
      some ((c.tab.lx.getD k 0 - c.tab.lx.getD (k + 1) 0 : ℚ) : ℝ) := by
  unfold dx_fracL
  rw [getD_append_left_o _ _ k _ (by
    rw [List.length_zipWith, List.length_drop, lx_frac_one_length]
    omega)]
  rw [zipWith_getD _ _ _ k none none none (by rw [lx_frac_one_length]; omega)
    (by rw [List.length_drop, lx_frac_one_length]; omega)]
  rw [lx_frac_one_getD c method hm hw k (by omega)]
  rw [drop_one_getD _ _ _ (by rw [lx_frac_one_length]; omega)]
  rw [lx_frac_one_getD c method hm hw (k + 1) (by omega)]
  push_cast
  rfl

theorem dx_frac_one_length (c : CommFuns) (method : Method) :
    (dx_fracL ⟨c, 1, method⟩).length = c.tab.w + 2 := by
  unfold dx_fracL
  rw [List.length_append, List.length_zipWith, List.length_drop, lx_frac_one_length]
  simp

theorem dx_frac_one_getD_last (c : CommFuns) (method : Method) :
    (dx_fracL ⟨c, 1, method⟩).getD (c.tab.w + 1) none = some 0 := by
  unfold dx_fracL
  rw [show c.tab.w + 1 = (List.zipWith
      (fun a b : Option ℝ =>
        match a, b with
        | some u, some v => some (u - v)
        | _, _ => none)
      (lx_fracL ⟨c, 1, method⟩) ((lx_fracL ⟨c, 1, method⟩).drop 1)).length from ?_]
  · exact getD_append_at_length _ _ _
  · rw [List.length_zipWith, List.length_drop, lx_frac_one_length]
    omega

theorem Cx_frac_one_length (c : CommFuns) (method : Method) :
    (Cx_fracL ⟨c, 1, method⟩).length = c.tab.w + 2 := by
  unfold Cx_fracL
  rw [List.length_zipWith, dx_frac_one_length, agesL_one_length]
  omega

theorem Cx_frac_one_getD (c : CommFuns) (method : Method) (hm : method ≠ .other)
    (hw : wellFormed c.tab) (k : ℕ) (h : k < c.tab.w + 2) :
    (Cx_fracL ⟨c, 1, method⟩).getD k none =
      some ((pyGet c.tab.dx (k : ℤ) * dfac c ^ (k + 1) : ℚ) : ℝ) := by
  unfold Cx_fracL
  rw [zipWith_getD _ _ _ k none 0 none (by rw [dx_frac_one_length]; omega)
    (by rw [agesL_one_length]; omega)]
  rw [agesL_one_getD c method k h]
  rcases Nat.lt_or_ge k (c.tab.w + 1) with hk | hk
  · rw [dx_frac_one_getD c method hm hw k hk]
    dsimp only [Option.map_some']
    rw [show (k : ℚ) + 1 / (((1 : ℕ) : ℚ)) = ((k + 1 : ℕ) : ℚ) by push_cast; ring]
    rw [show dfac (⟨c, 1, method⟩ : CommFrac).cf = dfac c from rfl]
    rw [qpow_natCast]
    have hdx := wf_dx_getD c.tab hw k (by rw [wf_qx_length c.tab hw]; omega)
    rw [pyGet_natCast, hdx]
    congr 1
    push_cast
    ring
  · have hk2 : k = c.tab.w + 1 := by omega
    subst hk2
    rw [dx_frac_one_getD_last c method]
    dsimp only [Option.map_some']
    rw [pyGet_oob _ _ (by rw [wf_dx_length c.tab hw, wf_qx_length c.tab hw])]
    norm_num

theorem Nx_frac_one_getD (c : CommFuns) (method : Method) (hm : method ≠ .other)
    (hw : wellFormed c.tab) (k : ℕ) (h : k < c.tab.w + 2) :
    (Nx_fracL ⟨c, 1, method⟩).getD k none =
      some (∑ j in Finset.Ico k (c.tab.w + 2),
        ((c.tab.lx.getD j 0 * dfac c ^ j : ℚ) : ℝ)) := by
  unfold Nx_fracL
  rw [getD_map_range_g _ _ _ _ (by rw [agesL_one_length]; omega)]
  have hp : ∀ j, j < (Dx_fracL ⟨c, 1, method⟩).length →
      (Dx_fracL ⟨c, 1, method⟩).getD j none =
        some (((c.tab.lx.getD j 0 * dfac c ^ j : ℚ) : ℝ)) := by
    intro j hj
    rw [Dx_frac_one_length] at hj
    exact Dx_frac_one_getD c method hm hw j hj
  rw [osumL_eq _ _ hp k, Dx_frac_one_length]

theorem Mx_frac_one_getD (c : CommFuns) (method : Method) (hm : method ≠ .other)
    (hw : wellFormed c.tab) (k : ℕ) (h : k < c.tab.w + 2) :
    (Mx_fracL ⟨c, 1, method⟩).getD k none =
      some (∑ j in Finset.Ico k (c.tab.w + 2),
        ((pyGet c.tab.dx (j : ℤ) * dfac c ^ (j + 1) : ℚ) : ℝ)) := by
  unfold Mx_fracL
  rw [getD_map_range_g _ _ _ _ (by rw [agesL_one_length]; omega)]
  have hp : ∀ j, j < (Cx_fracL ⟨c, 1, method⟩).length →
      (Cx_fracL ⟨c, 1, method⟩).getD j none =
        some (((pyGet c.tab.dx (j : ℤ) * dfac c ^ (j + 1) : ℚ) : ℝ)) := by
    intro j hj
    rw [Cx_frac_one_length] at hj
    exact Cx_frac_one_getD c method hm hw j hj
  rw [osumL_eq _ _ hp k, Cx_frac_one_length]

theorem Nx_frac_one_length (c : CommFuns) (method : Method) :
    (Nx_fracL ⟨c, 1, method⟩).length = c.tab.w + 2 := by
  unfold Nx_fracL
  rw [List.length_map, List.length_range, agesL_one_length]

theorem Mx_frac_one_length (c : CommFuns) (method : Method) :
    (Mx_fracL ⟨c, 1, method⟩).length = c.tab.w + 2 := by
  unfold Mx_fracL
  rw [List.length_map, List.length_range, agesL_one_length]

theorem sum_Ico_succ_top_zero (f : ℕ → ℝ) (k n : ℕ) (hk : k ≤ n) (hz : f n = 0) :
    ∑ j in Finset.Ico k (n + 1), f j = ∑ j in Finset.Ico k n, f j := by
  rw [Finset.sum_Ico_succ_top hk, hz, add_zero]

/-- With a valid method and a well-formed table, at integer indices up to
 w the fractional Mx agrees with the stored Mx column (as a rational). -/
theorem Mx_frac_one_eq_MxL (c : CommFuns) (method : Method) (hm : method ≠ .other)
    (hw : wellFormed c.tab) (j : ℕ) (hj : j ≤ c.tab.w) :
    (Mx_fracL ⟨c, 1, method⟩).getD j none =
      some ((pyGet (MxL c) (j : ℤ) : ℚ) : ℝ) := by
  have hdxlen : c.tab.dx.length = c.tab.w + 1 := by
    rw [wf_dx_length c.tab hw, wf_qx_length c.tab hw]
  rw [Mx_frac_one_getD c method hm hw j (by omega)]
  rw [show c.tab.w + 2 = (c.tab.w + 1) + 1 from rfl]
  rw [sum_Ico_succ_top_zero _ _ _ (by omega) (by
    rw [pyGet_oob _ _ (by omega)]
    norm_num)]
  congr 1
  rw [pyGet_natCast, MxL_getD c j (by rw [CxL_length]; omega),
    CxL_drop_sum, hdxlen]
  push_cast
  exact Finset.sum_congr rfl (fun x hx => by ring)

/-- Beyond the stored column, the fractional Mx entry at w + 1 is 0. -/
theorem Mx_frac_one_last (c : CommFuns) (method : Method) (hm : method ≠ .other)
    (hw : wellFormed c.tab) :
    (Mx_fracL ⟨c, 1, method⟩).getD (c.tab.w + 1) none = some 0 := by
  have hdxlen : c.tab.dx.length = c.tab.w + 1 := by
    rw [wf_dx_length c.tab hw, wf_qx_length c.tab hw]
  rw [Mx_frac_one_getD c method hm hw (c.tab.w + 1) (by omega)]
  rw [show c.tab.w + 2 = (c.tab.w + 1) + 1 from rfl]
  rw [Finset.sum_Ico_succ_top (le_refl _), Finset.Ico_self, Finset.sum_empty, zero_add]
  rw [pyGet_oob _ _ (by omega)]
  norm_num

/-- With a valid method, a well-formed table and a vanishing closing
 cohort, at integer indices up to w the fractional Nx agrees with the
 stored Nx column. -/
theorem Nx_frac_one_eq_NxL (c : CommFuns) (method : Method) (hm : method ≠ .other)
    (hw : wellFormed c.tab) (hL : c.tab.lx.getD (c.tab.w + 1) 0 = 0)
    (j : ℕ) (hj : j ≤ c.tab.w) :
    (Nx_fracL ⟨c, 1, method⟩).getD j none =
      some ((pyGet (NxL c) (j : ℤ) : ℚ) : ℝ) := by
  have hlxlen : c.tab.lx.length = c.tab.w + 2 := (hw.2.2.2).symm
  rw [Nx_frac_one_getD c method hm hw j (by omega)]
  rw [show c.tab.w + 2 = (c.tab.w + 1) + 1 from rfl]
  rw [sum_Ico_succ_top_zero _ _ _ (by omega) (by rw [hL]; norm_num)]
  congr 1
  rw [pyGet_natCast, NxL_getD c j (by rw [DxL_length]; omega),
    DxL_drop_sum, hlxlen]
  rw [show c.tab.w + 2 - 1 = c.tab.w + 1 from rfl]
  push_cast
  exact Finset.sum_congr rfl (fun x hx => by rw [pyGet_natCast])

/-- Beyond the stored column, the fractional Nx entry at w + 1 is 0 when
 the closing cohort vanishes. -/
theorem Nx_frac_one_last (c : CommFuns) (method : Method) (hm : method ≠ .other)
    (hw : wellFormed c.tab) (hL : c.tab.lx.getD (c.tab.w + 1) 0 = 0) :
    (Nx_fracL ⟨c, 1, method⟩).getD (c.tab.w + 1) none = some 0 := by
  rw [Nx_frac_one_getD c method hm hw (c.tab.w + 1) (by omega)]
  rw [show c.tab.w + 2 = (c.tab.w + 1) + 1 from rfl]
  rw [Finset.sum_Ico_succ_top (le_refl _), Finset.Ico_self, Finset.sum_empty, zero_add]
  rw [hL]
  norm_num

/-- At integer indices up to w the fractional Rx agrees with the stored
 Rx column. -/
theorem Rx_frac_one_eq_RxL (c : CommFuns) (method : Method) (hm : method ≠ .other)
    (hw : wellFormed c.tab) (k : ℕ) (hk : k ≤ c.tab.w) :
    (Rx_fracL ⟨c, 1, method⟩).getD k none =
      some ((pyGet (RxL c) (k : ℤ) : ℚ) : ℝ) := by
  have hdxlen : c.tab.dx.length = c.tab.w + 1 := by
    rw [wf_dx_length c.tab hw, wf_qx_length c.tab hw]
  have hMlen : (MxL c).length = c.tab.w + 1 := by
    rw [MxL_length, CxL_length, hdxlen]
  unfold Rx_fracL
  rw [getD_map_range_g _ _ _ _ (by rw [agesL_one_length]; omega)]
  have hp : ∀ j, j < (Mx_fracL ⟨c, 1, method⟩).length →
      (Mx_fracL ⟨c, 1, method⟩).getD j none =
        some ((pyGet (MxL c) (j : ℤ) : ℚ) : ℝ) := by
    intro j hj
    rw [Mx_frac_one_length] at hj
    rcases Nat.lt_or_ge j (c.tab.w + 1) with h1 | h1
    · exact Mx_frac_one_eq_MxL c method hm hw j (by omega)
    · have hj2 : j = c.tab.w + 1 := by omega
      subst hj2
      rw [Mx_frac_one_last c method hm hw, pyGet_oob _ _ (by omega)]
      norm_num
  rw [osumL_eq _ _ hp k, Mx_frac_one_length]
  rw [show c.tab.w + 2 = (c.tab.w + 1) + 1 from rfl]
  rw [sum_Ico_succ_top_zero _ _ _ (by omega) (by
    rw [pyGet_oob _ _ (by omega)]
    norm_num)]
  congr 1
  rw [pyGet_natCast, RxL_getD c k (by omega), MxL_drop_sum]
  rw [show (CxL c).length = c.tab.w + 1 by rw [CxL_length, hdxlen]]
  push_cast
  refine Finset.sum_congr rfl (fun x hx => ?_)
  rw [pyGet_natCast, MxL_getD c x (by
    rw [CxL_length, hdxlen]
    exact (Finset.mem_Ico.mp hx).2)]
  exact Rat.cast_list_sum _

/-- At integer indices up to w the fractional Sx agrees with the stored
 Sx column, provided the closing cohort vanishes. -/
theorem Sx_frac_one_eq_SxL (c : CommFuns) (method : Method) (hm : method ≠ .other)
    (hw : wellFormed c.tab) (hL : c.tab.lx.getD (c.tab.w + 1) 0 = 0)
    (k : ℕ) (hk : k ≤ c.tab.w) :
    (Sx_fracL ⟨c, 1, method⟩).getD k none =
      some ((pyGet (SxL c) (k : ℤ) : ℚ) : ℝ) := by
  have hlxlen : c.tab.lx.length = c.tab.w + 2 := (hw.2.2.2).symm
  have hNlen : (NxL c).length = c.tab.w + 1 := by
    rw [NxL_length, DxL_length, hlxlen]
    omega
  unfold Sx_fracL
  rw [getD_map_range_g _ _ _ _ (by rw [agesL_one_length]; omega)]
  have hp : ∀ j, j < (Nx_fracL ⟨c, 1, method⟩).length →
      (Nx_fracL ⟨c, 1, method⟩).getD j none =
        some ((pyGet (NxL c) (j : ℤ) : ℚ) : ℝ) := by
    intro j hj
    rw [Nx_frac_one_length] at hj
    rcases Nat.lt_or_ge j (c.tab.w + 1) with h1 | h1
    · exact Nx_frac_one_eq_NxL c method hm hw hL j (by omega)
    · have hj2 : j = c.tab.w + 1 := by omega
      subst hj2
      rw [Nx_frac_one_last c method hm hw hL, pyGet_oob _ _ (by omega)]
      norm_num
  rw [osumL_eq _ _ hp k, Nx_frac_one_length]
  rw [show c.tab.w + 2 = (c.tab.w + 1) + 1 from rfl]
  rw [sum_Ico_succ_top_zero _ _ _ (by omega) (by
    rw [pyGet_oob _ _ (by omega)]
    norm_num)]
  congr 1
  rw [pyGet_natCast, SxL_getD c k (by omega), NxL_drop_sum]
  rw [show (DxL c).length = c.tab.w + 1 by rw [DxL_length, hlxlen]; omega]
  push_cast
  refine Finset.sum_congr rfl (fun x hx => ?_)
  rw [pyGet_natCast, NxL_getD c x (by
    rw [DxL_length, hlxlen]
    have := (Finset.mem_Ico.mp hx).2
    omega)]
  exact Rat.cast_list_sum _

theorem Dx_frac_one_eq_DxL (c : CommFuns) (method : Method) (hm : method ≠ .other)
    (hw : wellFormed c.tab) (k : ℕ) (hk : k ≤ c.tab.w) :
    (Dx_fracL ⟨c, 1, method⟩).getD k none =
      some ((pyGet (DxL c) (k : ℤ) : ℚ) : ℝ) := by
  have hlxlen : c.tab.lx.length = c.tab.w + 2 := (hw.2.2.2).symm
  rw [Dx_frac_one_getD c method hm hw k (by omega)]
  rw [pyGet_natCast, DxL_getD c k (by omega), pyGet_natCast]

theorem Cx_frac_one_eq_CxL (c : CommFuns) (method : Method) (hm : method ≠ .other)
    (hw : wellFormed c.tab) (k : ℕ) (hk : k ≤ c.tab.w) :
    (Cx_fracL ⟨c, 1, method⟩).getD k none =
      some ((pyGet (CxL c) (k : ℤ) : ℚ) : ℝ) := by
  have hdxlen : c.tab.dx.length = c.tab.w + 1 := by
    rw [wf_dx_length c.tab hw, wf_qx_length c.tab hw]
  rw [Cx_frac_one_getD c method hm hw k (by omega)]
  rw [pyGet_natCast (CxL c), CxL_getD c k (by omega)]

/-- C2 counterexample companion and amended statement: constructing
 `CommutationFunctionsFrac` with frac = 1 from the same inputs as a
 `CommutationFunctions` reproduces `Dx`, `Cx`, `Mx`, `Rx` exactly at every
 integer age 0..w, while `Nx` and `Sx` are reproduced exactly provided the
 closing cohort lx[w+1] is exactly 0 (equivalently, the derived terminal
 qx is exactly 1); otherwise they differ by the positive tail term
 `lx[w+1] * d^(w+1)`. -/
theorem frac_roundtrip (i g : ℚ) (dt : DataType) (mtIn : List ℚ) (perc : ℚ)
    (method : Method) (sF : CommFrac) (cF : CommFuns)
    (hs : mkCommFrac i g dt mtIn perc 1 method = some sF)
    (hc : mkCommFuns i g dt mtIn perc false = some cF)
    (k : ℕ) (hk : k ≤ cF.tab.w) :
    ((Dx_fracL sF).getD k none = some ((pyGet (DxL cF) (k : ℤ) : ℚ) : ℝ) ∧
     (Cx_fracL sF).getD k none = some (CxR cF k) ∧
     (Mx_fracL sF).getD k none = some (MxR cF k) ∧
     (Rx_fracL sF).getD k none = some (RxR cF k)) ∧
    (cF.tab.lx.getD (cF.tab.w + 1) 0 = 0 →
      (Nx_fracL sF).getD k none = some ((pyGet (NxL cF) (k : ℤ) : ℚ) : ℝ) ∧
      (Sx_fracL sF).getD k none = some ((pyGet (SxL cF) (k : ℤ) : ℚ) : ℝ)) := by
  unfold mkCommFrac at hs
  rw [hc] at hs
  rw [Option.some_bind] at hs
  have hw : wellFormed cF.tab := by
    unfold mkCommFuns at hc
    obtain ⟨T, hT, hfT⟩ := Option.map_eq_some'.mp hc
    have : cF.tab = T := by rw [← hfT]
    rw [this]
    exact mk_wellFormed dt mtIn perc 1 T hT
  have hac : cF.app_cont = false := by
    unfold mkCommFuns at hc
    obtain ⟨T, hT, hfT⟩ := Option.map_eq_some'.mp hc
    rw [← hfT]
  by_cases hm : method = .other
  · rw [if_pos hm] at hs
    exact Option.noConfusion hs
  · rw [if_neg hm] at hs
    rw [if_neg (by norm_num)] at hs
    have hsF := Option.some.inj hs
    subst hsF
    have hCast : ∀ j : ℕ, CxR cF j = ((pyGet (CxL cF) (j : ℤ) : ℚ) : ℝ) := by
      intro j
      unfold CxR
      rw [hac]
      norm_num
    have hMast : ∀ j : ℕ, MxR cF j = ((pyGet (MxL cF) (j : ℤ) : ℚ) : ℝ) := by
      intro j
      unfold MxR
      rw [hac]
      norm_num
    have hRast : ∀ j : ℕ, RxR cF j = ((pyGet (RxL cF) (j : ℤ) : ℚ) : ℝ) := by
      intro j
      unfold RxR
      rw [hac]
      norm_num
    refine ⟨⟨Dx_frac_one_eq_DxL cF method hm hw k hk, ?_, ?_, ?_⟩, fun hL => ⟨?_, ?_⟩⟩
    · rw [hCast k]
      exact Cx_frac_one_eq_CxL cF method hm hw k hk
    · rw [hMast k]
      exact Mx_frac_one_eq_MxL cF method hm hw k hk
    · rw [hRast k]
      exact Rx_frac_one_eq_RxL cF method hm hw k hk
    · exact Nx_frac_one_eq_NxL cF method hm hw hL k hk
    · exact Sx_frac_one_eq_SxL cF method hm hw hL k hk

theorem frac_roundtrip_witness :
    (Dx_fracL sf0).getD 1 none = some ((pyGet (DxL cf0) (1 : ℤ) : ℚ) : ℝ) ∧
    (Nx_fracL sf0).getD 1 none = some ((pyGet (NxL cf0) (1 : ℤ) : ℚ) : ℝ) := by
  have hs : mkCommFrac 5 0 .q [0, 1/2] 100 1 .udd = some sf0 := by
    norm_num [mkCommFrac, mkCommFuns, mkMortalityTable, mkQxRaw, applyLastQ,
      pyGet, pyInt, lxFrom, sf0, cf0, tab0]
    exact fun h => absurd h (by decide)
  have hc : mkCommFuns 5 0 .q [0, 1/2] 100 false = some cf0 := by
    norm_num [mkCommFuns, mkMortalityTable, mkQxRaw, applyLastQ,
      pyGet, pyInt, lxFrom, cf0, tab0]
  have h := frac_roundtrip 5 0 .q [0, 1/2] 100 .udd sf0 cf0 hs hc 1
    (by norm_num [cf0, tab0])
  exact ⟨h.1.1, (h.2 (by norm_num [cf0, tab0])).1⟩

/-- C2 counterexample: the table `[0, 1/2, 1 - 10^-12]` keeps a terminal
 qx within the 1e-11 tolerance, so no certain-death year is appended and
 `lx[w+1] = 1/20000000 > 0`; the fractional `Nx` then carries the extra
 tail term `lx[w+1] * d^(w+1)` and differs from `Nx` at the integer age
 1 = w, even in exact arithmetic. -/
theorem frac_roundtrip_cex :
    mkCommFrac 5 0 .q [0, 1/2, 1 - 1/10^12] 100 1 .udd = some sfB ∧
    mkCommFuns 5 0 .q [0, 1/2, 1 - 1/10^12] 100 false = some cfB ∧
    (Nx_fracL sfB).getD 1 none ≠ some ((pyGet (NxL cfB) (1 : ℤ) : ℚ) : ℝ) := by
  refine ⟨by
    norm_num [mkCommFrac, mkCommFuns, mkMortalityTable, mkQxRaw, applyLastQ,
      pyGet, pyInt, lxFrom, sfB, cfB, tabB]
    exact fun h => absurd h (by decide),
   by
    norm_num [mkCommFuns, mkMortalityTable, mkQxRaw, applyLastQ,
      pyGet, pyInt, lxFrom, cfB, tabB], ?_⟩
  have hwB : wellFormed cfB.tab := by
    refine ⟨?_, ?_, ?_, ?_⟩ <;> norm_num [cfB, tabB, lxFrom]
  have h1 := Nx_frac_one_getD cfB .udd (by simp) hwB 1 (by norm_num [cfB, tabB])
  have hsum : ∑ j in Finset.Ico 1 (cfB.tab.w + 2),
      ((cfB.tab.lx.getD j 0 * dfac cfB ^ j : ℚ) : ℝ) =
      ((cfB.tab.lx.getD 1 0 * dfac cfB ^ 1 +
        cfB.tab.lx.getD 2 0 * dfac cfB ^ 2 : ℚ) : ℝ) := by
    rw [show cfB.tab.w + 2 = 3 by norm_num [cfB, tabB]]
    rw [show (3 : ℕ) = 2 + 1 from rfl, Finset.sum_Ico_succ_top (by norm_num),
      show (2 : ℕ) = 1 + 1 from rfl, Finset.sum_Ico_succ_top (by norm_num),
      Finset.Ico_self, Finset.sum_empty, zero_add]
    push_cast
    ring
  rw [show sfB = (⟨cfB, 1, Method.udd⟩ : CommFrac) from rfl, h1, hsum]
  intro hcon
  have h2 := Option.some.inj hcon
  have h3 : (cfB.tab.lx.getD 1 0 * dfac cfB ^ 1 +
      cfB.tab.lx.getD 2 0 * dfac cfB ^ 2 : ℚ) = pyGet (NxL cfB) (1 : ℤ) := by
    exact_mod_cast h2
  rw [show ((1 : ℤ)) = ((1 : ℕ) : ℤ) from rfl, pyGet_natCast] at h3
  rw [NxL_getD cfB 1 (by rw [DxL_length]; norm_num [cfB, tabB]), DxL_drop_sum] at h3
  rw [show cfB.tab.lx.length - 1 = 2 by norm_num [cfB, tabB]] at h3
  rw [show (2 : ℕ) = 1 + 1 from rfl, Finset.sum_Ico_succ_top (by norm_num),
    Finset.Ico_self, Finset.sum_empty, zero_add, pyGet_natCast] at h3
  norm_num [cfB, tabB, dfac] at h3
